import Mathlib

/-!
Verification of the label-propagation and evaluation engine behind
`src/2012/Interspeech/run.py` (unsupervised speaker identification using
overlaid texts). The script composes PyAnnote 0.2.2 primitives; the
primitives themselves (timeline cropping, anonymization, cost matrices,
assignment taggers, the EstimatedGlobalErrorRate metric) are not part of
the repository's sources, so they are modelled from the specification,
while the pipeline compositions (M1, M2, M3, SID, M3 + SID) are embedded
from `run.py` itself. Time is modelled by rationals.
-/

/-- A closed-open time range [start, stop). -/
structure Segment where
  start : ℚ
  stop : ℚ
deriving DecidableEq

/-- Two segments intersect when their ranges overlap with positive duration. -/
def Segment.intersects (s t : Segment) : Bool :=
  decide (max s.start t.start < min s.stop t.stop)

/-- Duration of the temporal overlap of two segments (0 when disjoint). -/
def Segment.overlap (s t : Segment) : ℚ :=
  max 0 (min s.stop t.stop - max s.start t.start)

/-- An identity label: either a known name or an auto-generated Unknown
placeholder, unique per occurrence. -/
inductive Label where
  | known : String → Label
  | unknown : Nat → Label
deriving DecidableEq

/-- Whether a label is an Unknown placeholder. -/
def Label.isUnknown : Label → Bool
  | .unknown _ => true
  | .known _ => false

/-- A labelled temporal annotation: a list of tracks, each a segment
carrying one label (multi-track: the same segment may occur several times
with simultaneous labels). -/
abbrev Annot := List (Segment × Label)

/-- Modelled from the spec: one unit of the annotated region during a
scoring call of EstimatedGlobalErrorRate (missing from src/, it lives in
pyannote.metric.repere) — its duration, the ground-truth label carried
there (if any) and the propagated label carried there (if any). -/
structure ScoredUnit where
  duration : ℚ
  truth : Option Label
  hyp : Option Label
deriving DecidableEq

/-- Modelled from the spec: the four running duration totals held by an
EstimatedGlobalErrorRate accumulator (missing from src/). -/
structure EGERState where
  correct : ℚ
  confusion : ℚ
  miss : ℚ
  falseAlarm : ℚ
deriving DecidableEq

/-- The all-zero totals of a freshly created accumulator. -/
def EGERState.init : EGERState := ⟨0, 0, 0, 0⟩

/-- Pointwise addition of the four duration totals. -/
def EGERState.add (s t : EGERState) : EGERState :=
  ⟨s.correct + t.correct, s.confusion + t.confusion,
   s.miss + t.miss, s.falseAlarm + t.falseAlarm⟩

/-- Modelled from the spec: the contribution of one unit of the annotated
region — matching labels count as correct, differing labels as confusion,
a ground-truth label with no propagated counterpart as miss, and a
propagated label with no ground-truth counterpart as false alarm, all as
durations. -/
def scoreUnit (u : ScoredUnit) : EGERState :=
  match u.truth, u.hyp with
  | some g, some h => if g = h then ⟨u.duration, 0, 0, 0⟩ else ⟨0, u.duration, 0, 0⟩
  | some _, none => ⟨0, 0, u.duration, 0⟩
  | none, some _ => ⟨0, 0, 0, u.duration⟩
  | none, none => ⟨0, 0, 0, 0⟩

/-- Modelled from the spec: the four duration totals contributed by one
scoring call, represented by the list of units of its annotated region. -/
def scoreCall (us : List ScoredUnit) : EGERState :=
  us.foldr (fun u t => (scoreUnit u).add t) EGERState.init

/-- Modelled from the spec: feeding one scoring call to an accumulator
adds the call's four duration totals to the running totals. -/
def accumulate (s : EGERState) (us : List ScoredUnit) : EGERState :=
  s.add (scoreCall us)

/-- Modelled from the spec: precision = correct / (correct + confusion +
false_alarm); a zero denominator surfaces as an undefined result (none),
never as a silently coerced 0. -/
def precision (s : EGERState) : Option ℚ :=
  if s.correct + s.confusion + s.falseAlarm = 0 then none
  else some (s.correct / (s.correct + s.confusion + s.falseAlarm))

/-- Modelled from the spec: recall = correct / (correct + confusion +
miss); a zero denominator surfaces as an undefined result (none). -/
def recallStat (s : EGERState) : Option ℚ :=
  if s.correct + s.confusion + s.miss = 0 then none
  else some (s.correct / (s.correct + s.confusion + s.miss))

/-- Modelled from the spec: f_measure = harmonic mean of precision and
recall, undefined when either is undefined or when their sum is zero. -/
def fMeasure (s : EGERState) : Option ℚ :=
  match precision s, recallStat s with
  | some p, some r => if p + r = 0 then none else some (2 * p * r / (p + r))
  | _, _ => none

/-- Modelled from the spec: the aggregate error rate ("EGER", read via
abs() in the script) = (confusion + miss + false_alarm) / (correct +
confusion + miss), undefined on a zero denominator. -/
def errorRate (s : EGERState) : Option ℚ :=
  if s.correct + s.confusion + s.miss = 0 then none
  else some ((s.confusion + s.miss + s.falseAlarm) / (s.correct + s.confusion + s.miss))

/-- Reading the error rate, with the accumulator state passed explicitly:
returns the snapshot value together with the (unchanged) state. -/
def readEGER (s : EGERState) : Option ℚ × EGERState := (errorRate s, s)

/-- Reading precision, with the accumulator state passed explicitly. -/
def readPrecision (s : EGERState) : Option ℚ × EGERState := (precision s, s)

/-- Reading recall, with the accumulator state passed explicitly. -/
def readRecall (s : EGERState) : Option ℚ × EGERState := (recallStat s, s)

/-- Reading f_measure, with the accumulator state passed explicitly. -/
def readFMeasure (s : EGERState) : Option ℚ × EGERState := (fMeasure s, s)

lemma eadd_assoc (a b c : EGERState) : (a.add b).add c = a.add (b.add c) := by
  simp [EGERState.add, add_assoc]

lemma init_eadd (s : EGERState) : EGERState.init.add s = s := by
  obtain ⟨a, b, c, d⟩ := s
  simp [EGERState.add, EGERState.init]

lemma eadd_init (s : EGERState) : s.add EGERState.init = s := by
  obtain ⟨a, b, c, d⟩ := s
  simp [EGERState.add, EGERState.init]

lemma scoreCall_nil : scoreCall [] = EGERState.init := rfl

lemma scoreCall_cons (u : ScoredUnit) (us : List ScoredUnit) :
    scoreCall (u :: us) = (scoreUnit u).add (scoreCall us) := rfl

lemma scoreCall_append (l1 l2 : List ScoredUnit) :
    scoreCall (l1 ++ l2) = (scoreCall l1).add (scoreCall l2) := by
  induction l1 with
  | nil => rw [List.nil_append, scoreCall_nil, init_eadd]
  | cons u l ih =>
      rw [List.cons_append, scoreCall_cons, ih, scoreCall_cons, eadd_assoc]

lemma foldl_accumulate (calls : List (List ScoredUnit)) :
    ∀ s : EGERState, calls.foldl accumulate s = s.add (scoreCall calls.flatten) := by
  induction calls with
  | nil => intro s; rw [List.foldl_nil, List.flatten_nil, scoreCall_nil, eadd_init]
  | cons c cs ih =>
      intro s
      rw [List.foldl_cons, ih, List.flatten_cons, scoreCall_append]
      rw [accumulate, eadd_assoc]

/-- C1: feeding an EstimatedGlobalErrorRate accumulator one scoring call
per triple yields the same four running duration totals — and therefore
the same derived precision, recall, f_measure and error rate — as a
single scoring call over the concatenation of all the triples. -/
theorem eger_additivity (calls : List (List ScoredUnit)) :
    calls.foldl accumulate EGERState.init = accumulate EGERState.init calls.flatten ∧
    precision (calls.foldl accumulate EGERState.init) =
      precision (accumulate EGERState.init calls.flatten) ∧
    recallStat (calls.foldl accumulate EGERState.init) =
      recallStat (accumulate EGERState.init calls.flatten) ∧
    fMeasure (calls.foldl accumulate EGERState.init) =
      fMeasure (accumulate EGERState.init calls.flatten) ∧
    errorRate (calls.foldl accumulate EGERState.init) =
      errorRate (accumulate EGERState.init calls.flatten) := by
  have h : calls.foldl accumulate EGERState.init = accumulate EGERState.init calls.flatten := by
    rw [foldl_accumulate, accumulate]
  exact ⟨h, by rw [h], by rw [h], by rw [h], by rw [h]⟩

/-- C2: with non-zero denominators the derived statistics read from the
running totals satisfy the four documented formulas, and totals of 70s
correct, 10s confusion, 10s miss and 10s false alarm yield precision =
recall = f_measure = 7/9 and error rate = 1/3. -/
theorem eger_statistics (s : EGERState)
    (h1 : s.correct + s.confusion + s.falseAlarm ≠ 0)
    (h2 : s.correct + s.confusion + s.miss ≠ 0) :
    precision s = some (s.correct / (s.correct + s.confusion + s.falseAlarm)) ∧
    recallStat s = some (s.correct / (s.correct + s.confusion + s.miss)) ∧
    errorRate s = some ((s.confusion + s.miss + s.falseAlarm) /
      (s.correct + s.confusion + s.miss)) ∧
    (∀ p r, precision s = some p → recallStat s = some r → p + r ≠ 0 →
      fMeasure s = some (2 * p * r / (p + r))) ∧
    (precision ⟨70, 10, 10, 10⟩ = some (7/9) ∧ recallStat ⟨70, 10, 10, 10⟩ = some (7/9) ∧
     fMeasure ⟨70, 10, 10, 10⟩ = some (7/9) ∧ errorRate ⟨70, 10, 10, 10⟩ = some (1/3)) := by
  refine ⟨by rw [precision, if_neg h1], by rw [recallStat, if_neg h2],
    by rw [errorRate, if_neg h2], ?_, by norm_num [precision],
    by norm_num [recallStat], by norm_num [fMeasure, precision, recallStat],
    by norm_num [errorRate]⟩
  intro p r hp hr hpr
  rw [fMeasure, hp, hr]
  simp [hpr]

/-- C2 witness: the derived-statistics theorem applied at the concrete
totals (70, 10, 10, 10). -/
theorem eger_statistics_check :
    ((70 : ℚ) + 10 + 10 ≠ 0) ∧
    precision ⟨70, 10, 10, 10⟩ = some ((70 : ℚ) / (70 + 10 + 10)) :=
  ⟨by norm_num, (eger_statistics ⟨70, 10, 10, 10⟩ (by norm_num) (by norm_num)).1⟩

/-- C3: a zero denominator in any derived statistic surfaces as an
undefined result (none), never a silently coerced 0; scoring an empty
propagated annotation against a 50s ground-truth-labelled region with no
overlap gives recall = 0, undefined precision (0/0) and error rate = 1. -/
theorem eger_zero_denominator (s : EGERState) :
    (s.correct + s.confusion + s.falseAlarm = 0 →
      precision s = none ∧ fMeasure s = none) ∧
    (s.correct + s.confusion + s.miss = 0 →
      recallStat s = none ∧ errorRate s = none) ∧
    (recallStat (scoreCall [⟨50, some (Label.known "gt"), none⟩]) = some 0 ∧
     precision (scoreCall [⟨50, some (Label.known "gt"), none⟩]) = none ∧
     errorRate (scoreCall [⟨50, some (Label.known "gt"), none⟩]) = some 1) := by
  refine ⟨fun h => ⟨by rw [precision, if_pos h], ?_⟩,
    fun h => ⟨by rw [recallStat, if_pos h], by rw [errorRate, if_pos h]⟩,
    by norm_num [recallStat, scoreCall, scoreUnit, EGERState.add, EGERState.init],
    by norm_num [precision, scoreCall, scoreUnit, EGERState.add, EGERState.init],
    by norm_num [errorRate, scoreCall, scoreUnit, EGERState.add, EGERState.init]⟩
  rw [fMeasure, precision, if_pos h]

/-- C3 witness: the zero-denominator theorem applied at the all-zero
accumulator state. -/
theorem eger_zero_denominator_check :
    ((0 : ℚ) + 0 + 0 = 0) ∧ precision ⟨0, 0, 0, 0⟩ = none :=
  ⟨by norm_num, ((eger_zero_denominator ⟨0, 0, 0, 0⟩).1 (by norm_num)).1⟩

/-- C9: reading any derived statistic returns the accumulator state
unchanged; repeated reads return equal values, and a read interleaved
between accumulation calls yields the same final state as the
accumulation calls alone, so an accumulator printed once and reused
(aliased) elsewhere still reports the same statistics. -/
theorem metric_read_pure (s : EGERState) :
    (readEGER s).2 = s ∧ (readPrecision s).2 = s ∧
    (readRecall s).2 = s ∧ (readFMeasure s).2 = s ∧
    (readEGER ((readEGER s).2)).1 = (readEGER s).1 ∧
    (readPrecision ((readEGER s).2)).1 = (readPrecision s).1 ∧
    (readRecall ((readFMeasure s).2)).1 = (readRecall s).1 ∧
    (∀ c1 c2 : List ScoredUnit,
      accumulate ((readEGER (accumulate s c1)).2) c2 = accumulate (accumulate s c1) c2) :=
  ⟨rfl, rfl, rfl, rfl, rfl, rfl, rfl, fun _ _ => rfl⟩

/-- Modelled from the spec: Timeline.crop in loose mode (missing from
src/, it lives in pyannote.base) — keep every original interval that has
non-zero-duration overlap with the reference timeline, whole and
unclipped. -/
def cropLooseT (T R : List Segment) : List Segment :=
  T.filter (fun s => R.any (fun r => s.intersects r))

/-- Modelled from the spec: Timeline.crop in strict mode (missing from
src/) — keep only the intervals wholly contained in an interval of the
reference timeline. -/
def cropStrictT (T R : List Segment) : List Segment :=
  T.filter (fun s => R.any (fun r => decide (r.start ≤ s.start ∧ s.stop ≤ r.stop)))

/-- Modelled from the spec: label-preserving crop of an annotation in
loose mode (missing from src/) — keep every track whose segment has
non-zero-duration overlap with the reference timeline. -/
def cropLooseA (A : Annot) (R : List Segment) : Annot :=
  A.filter (fun u => R.any (fun r => u.1.intersects r))

/-- Modelled from the spec: label-preserving crop of an annotation in
strict mode (missing from src/). -/
def cropStrictA (A : Annot) (R : List Segment) : Annot :=
  A.filter (fun u => R.any (fun r => decide (r.start ≤ u.1.start ∧ u.1.stop ≤ r.stop)))

/-- C5: cropping a timeline or annotation by a reference timeline in
loose mode returns exactly the original intervals with non-zero-duration
overlap with the reference, each retained whole with unclipped
boundaries; consequently the loose crop's interval set is a superset of
the strict crop's for the same reference (for non-degenerate
intervals). -/
theorem crop_loose_spec (T R : List Segment) (A : Annot) :
    (∀ s : Segment, s ∈ cropLooseT T R ↔
      s ∈ T ∧ ∃ r ∈ R, max s.start r.start < min s.stop r.stop) ∧
    (∀ u : Segment × Label, u ∈ cropLooseA A R ↔
      u ∈ A ∧ ∃ r ∈ R, max u.1.start r.start < min u.1.stop r.stop) ∧
    ((∀ s ∈ T, s.start < s.stop) →
      ∀ s : Segment, s ∈ cropStrictT T R → s ∈ cropLooseT T R) ∧
    ((∀ u ∈ A, u.1.start < u.1.stop) →
      ∀ u : Segment × Label, u ∈ cropStrictA A R → u ∈ cropLooseA A R) := by
  refine ⟨?_, ?_, ?_, ?_⟩
  · intro s
    simp [cropLooseT, List.mem_filter, Segment.intersects]
  · intro u
    simp [cropLooseA, List.mem_filter, Segment.intersects]
  · intro hv s hs
    rw [cropStrictT, List.mem_filter] at hs
    obtain ⟨hsT, hany⟩ := hs
    rw [List.any_eq_true] at hany
    obtain ⟨r, hrR, hr⟩ := hany
    rw [decide_eq_true_eq] at hr
    rw [cropLooseT, List.mem_filter]
    refine ⟨hsT, ?_⟩
    rw [List.any_eq_true]
    refine ⟨r, hrR, ?_⟩
    rw [Segment.intersects, decide_eq_true_eq, max_lt_iff, lt_min_iff, lt_min_iff]
    have hss := hv s hsT
    exact ⟨⟨by linarith [hr.1, hr.2], by linarith [hr.1, hr.2]⟩,
      ⟨by linarith [hr.1, hr.2], by linarith [hr.1, hr.2]⟩⟩
  · intro hv u hu
    rw [cropStrictA, List.mem_filter] at hu
    obtain ⟨huA, hany⟩ := hu
    rw [List.any_eq_true] at hany
    obtain ⟨r, hrR, hr⟩ := hany
    rw [decide_eq_true_eq] at hr
    rw [cropLooseA, List.mem_filter]
    refine ⟨huA, ?_⟩
    rw [List.any_eq_true]
    refine ⟨r, hrR, ?_⟩
    rw [Segment.intersects, decide_eq_true_eq, max_lt_iff, lt_min_iff, lt_min_iff]
    have hss := hv u huA
    exact ⟨⟨by linarith [hr.1, hr.2], by linarith [hr.1, hr.2]⟩,
      ⟨by linarith [hr.1, hr.2], by linarith [hr.1, hr.2]⟩⟩

/-- C5 witness: the crop theorem applied to the one-interval timeline
[0, 2) with reference [0, 3): the interval survives the strict crop, so
it is also in the loose crop. -/
theorem crop_loose_check :
    ((0 : ℚ) < 2) ∧ (⟨0, 2⟩ : Segment) ∈ cropLooseT [⟨0, 2⟩] [⟨0, 3⟩] :=
  ⟨by norm_num,
   (crop_loose_spec [⟨0, 2⟩] [⟨0, 3⟩] []).2.2.1
     (by intro s hs; rw [List.mem_singleton] at hs; subst hs; norm_num)
     ⟨0, 2⟩
     (by rw [cropStrictT, List.mem_filter, List.any_eq_true]
         exact ⟨List.mem_cons_self _ _, ⟨0, 3⟩, List.mem_cons_self _ _,
           by rw [decide_eq_true_eq]; norm_num⟩)⟩

/-- C5 counterexample: the claim as frozen fails on degenerate
intervals — the zero-length interval [0, 0) is wholly contained in the
reference interval [0, 1), so the strict crop keeps it, yet it has no
non-zero-duration overlap with the reference, so the loose crop drops
it; the loose crop is therefore not an unconditional superset of the
strict crop. -/
theorem crop_loose_counterexample :
    (⟨0, 0⟩ : Segment) ∈ cropStrictT [⟨0, 0⟩] [⟨0, 1⟩] ∧
    (⟨0, 0⟩ : Segment) ∉ cropLooseT [⟨0, 0⟩] [⟨0, 1⟩] := by
  constructor
  · rw [cropStrictT, List.mem_filter, List.any_eq_true]
    refine ⟨List.mem_cons_self _ _, ⟨0, 1⟩, List.mem_cons_self _ _, ?_⟩
    rw [decide_eq_true_eq]
    norm_num
  · intro h
    rw [cropLooseT, List.mem_filter, List.any_eq_true] at h
    obtain ⟨_, r, hr, hi⟩ := h
    rw [List.mem_singleton] at hr
    subst hr
    rw [Segment.intersects, decide_eq_true_eq] at hi
    norm_num [min_def, max_def] at hi

/-- The distinct labels used by an annotation, in order of first use. -/
def labelList (A : Annot) : List Label := (A.map Prod.snd).dedup

/-- Position of a label among the distinct labels of an annotation. -/
def labelIndex (A : Annot) (l : Label) : Nat := (labelList A).indexOf l

/-- One step of the bound on Unknown identifiers already used. -/
def bumpUnknown (l : Label) (m : Nat) : Nat :=
  match l with
  | .unknown k => max (k + 1) m
  | .known _ => m

/-- A bound strictly above every Unknown identifier occurring in an
annotation, playing the role of the global Unknown counter. -/
def unknownBound (A : Annot) : Nat := A.foldr (fun u m => bumpUnknown u.2 m) 0

/-- Modelled from the spec: the fresh Unknown label that anonymize()
substitutes for a given original label — fresh identifiers start past
every identifier already in use, and equal original labels receive the
same fresh label within the call. -/
def freshLabel (A : Annot) (l : Label) : Label :=
  Label.unknown (unknownBound A + labelIndex A l)

/-- Modelled from the spec: anonymize() (missing from src/, it lives in
pyannote.base) — replace every label with a fresh unique Unknown label,
preserving interval structure and the equivalence classes of identical
original labels. -/
def anonymize (A : Annot) : Annot :=
  A.map (fun u => (u.1, freshLabel A u.2))

/-- Modelled from the spec: relabel — substitute labels through a
mapping, label-structure preserving. -/
def relabel (f : Label → Label) (A : Annot) : Annot :=
  A.map (fun u => (u.1, f u.2))

/-- The equivalence mapping induced by an anonymize() call, sending each
fresh Unknown label back to the original label it replaced (other labels
pass through unchanged). -/
def deanonMap (A : Annot) : Label → Label := fun l =>
  match l with
  | Label.unknown k =>
      if h : k - unknownBound A < (labelList A).length then
        (labelList A).get ⟨k - unknownBound A, h⟩
      else l
  | Label.known _ => l

lemma unknownBound_cons (a : Segment × Label) (as : Annot) :
    unknownBound (a :: as) = bumpUnknown a.2 (unknownBound as) := rfl

lemma le_bumpUnknown (l : Label) (m : Nat) : m ≤ bumpUnknown l m := by
  cases l with
  | known n => exact le_refl m
  | unknown k => exact le_max_right (k + 1) m

lemma mem_unknownBound (A : Annot) (p : Segment × Label) (k : Nat)
    (hp : p ∈ A) (hk : p.2 = Label.unknown k) : k < unknownBound A := by
  induction A with
  | nil => cases hp
  | cons a as ih =>
      rw [unknownBound_cons]
      rcases List.mem_cons.mp hp with h | h
      · subst h
        rw [hk, bumpUnknown]
        exact Nat.lt_of_lt_of_le (Nat.lt_succ_self k) (le_max_left (k + 1) _)
      · exact Nat.lt_of_lt_of_le (ih h) (le_bumpUnknown a.2 _)

lemma label_mem_labelList (A : Annot) (u : Segment × Label) (hu : u ∈ A) :
    u.2 ∈ labelList A :=
  List.mem_dedup.mpr (List.mem_map_of_mem Prod.snd hu)

/-- C6: anonymize() preserves the interval/track structure, replaces
every label with a fresh Unknown label (fresh: distinct from every label
of the input), gives two tracks the same new label exactly when they
carried the same original label, and relabeling back through the induced
equivalence mapping recovers the original annotation, hence the original
label partition. -/
theorem anonymize_spec (A : Annot) :
    (anonymize A).map Prod.fst = A.map Prod.fst ∧
    (∀ u ∈ anonymize A, u.2.isUnknown = true) ∧
    (∀ u ∈ anonymize A, ∀ v ∈ A, u.2 ≠ v.2) ∧
    (∀ u ∈ A, ∀ v ∈ A, (freshLabel A u.2 = freshLabel A v.2 ↔ u.2 = v.2)) ∧
    relabel (deanonMap A) (anonymize A) = A := by
  refine ⟨?_, ?_, ?_, ?_, ?_⟩
  · rw [anonymize, List.map_map]
    rfl
  · intro u hu
    rw [anonymize] at hu
    obtain ⟨w, _, rfl⟩ := List.mem_map.mp hu
    rfl
  · intro u hu v hv
    rw [anonymize] at hu
    obtain ⟨w, hw, rfl⟩ := List.mem_map.mp hu
    rcases hv2 : v.2 with n | k
    · rw [freshLabel]
      simp
    · have hb := mem_unknownBound A v k hv hv2
      rw [freshLabel]
      simp only [ne_eq, Label.unknown.injEq]
      omega
  · intro u hu v hv
    have hmu := label_mem_labelList A u hu
    have hmv := label_mem_labelList A v hv
    rw [freshLabel, freshLabel, Label.unknown.injEq, Nat.add_left_cancel_iff]
    exact List.indexOf_inj hmu hmv
  · rw [anonymize, relabel, List.map_map]
    conv_rhs => rw [← List.map_id A]
    refine List.map_congr_left ?_
    intro u hu
    have hmu := label_mem_labelList A u hu
    have hidx : (labelList A).indexOf u.2 < (labelList A).length :=
      List.indexOf_lt_length.mpr hmu
    show (u.1, deanonMap A (freshLabel A u.2)) = u
    rw [freshLabel, deanonMap]
    simp only [labelIndex, Nat.add_sub_cancel_left]
    rw [dif_pos hidx, List.indexOf_get hidx]

/-- A three-track annotation used to instantiate the anonymization
theorem on concrete data. -/
def wA6 : Annot :=
  [(⟨0, 1⟩, Label.known "a"), (⟨1, 2⟩, Label.known "b"), (⟨2, 3⟩, Label.known "a")]

/-- C6 witness: the anonymization theorem applied to a concrete
three-track annotation — the fresh label replacing "a" differs from every
original label. -/
theorem anonymize_check :
    ((⟨0, 1⟩, Label.known "a") : Segment × Label) ∈ wA6 ∧
    freshLabel wA6 (Label.known "a") ≠ Label.known "a" :=
  ⟨List.mem_cons_self _ _,
   (anonymize_spec wA6).2.2.1 (⟨0, 1⟩, freshLabel wA6 (Label.known "a"))
     (List.mem_map_of_mem _ (List.mem_cons_self _ _))
     (⟨0, 1⟩, Label.known "a") (List.mem_cons_self _ _)⟩

/-- Modelled from the spec: the co-occurrence cost matrix entry (missing
from src/, it lives in pyannote.base.matrix) — total duration of temporal
overlap between the tracks labelled a in A and the tracks labelled b in
B, 0 for non-co-occurring pairs. -/
def cooccurrence (A B : Annot) (a b : Label) : ℚ :=
  ((A.filter (fun u => decide (u.2 = a))).map (fun u =>
    ((B.filter (fun v => decide (v.2 = b))).map (fun v => u.1.overlap v.1)).sum)).sum

/-- Modelled from the spec: the TF-IDF-weighted co-occurrence cost
(missing from src/) — the overlap duration weighted by the
discriminativeness log(|labels(A)| / (1 + number of distinct A-labels
co-occurring with b)). -/
noncomputable def coTFIDF (A B : Annot) (a b : Label) : ℝ :=
  (cooccurrence A B a b : ℝ) *
    Real.log (((labelList A).length : ℝ) /
      (1 + (((labelList A).filter
        (fun x => decide (0 < cooccurrence A B x b))).length : ℝ)))

/-- Total cost of a partial matching under a cost matrix. -/
def totalCost (cost : Label → Label → ℚ) (m : List (Label × Label)) : ℚ :=
  (m.map (fun p => cost p.1 p.2)).sum

/-- All partial matchings between two label lists: each row is either
skipped or paired with one still-available column. -/
def matchings : List Label → List Label → List (List (Label × Label))
  | [], _ => [[]]
  | a :: as, bs =>
      matchings as bs ++
        bs.flatMap (fun b => (matchings as (bs.erase b)).map (fun m => (a, b) :: m))

/-- The partial matching of maximal total cost, by exhaustive search (an
executable specification of the optimal bipartite assignment). -/
def bestMatching (cost : Label → Label → ℚ)
    (ms : List (List (Label × Label))) : List (Label × Label) :=
  ms.foldl (fun acc m => if totalCost cost acc < totalCost cost m then m else acc) []

/-- Modelled from the spec: the one-to-one label mapping computed by
HungarianTagger with co-occurrence cost (missing from src/, it lives in
pyannote.algorithm.tagging) — an optimal bipartite assignment between the
label sets, with zero-evidence pairs left unmapped. -/
def hungarianMapping (A B : Annot) : List (Label × Label) :=
  (bestMatching (cooccurrence A B) (matchings (labelList A) (labelList B))).filter
    (fun p => decide (0 < cooccurrence A B p.1 p.2))

/-- Retarget one track through a label mapping: a track whose label is
the B-side of a pair adopts the pair's A-side label, other tracks keep
their original label. -/
def mapUnit (m : List (Label × Label)) (u : Segment × Label) : Segment × Label :=
  match m.find? (fun p => decide (p.2 = u.2)) with
  | some p => (u.1, p.1)
  | none => u

/-- Apply a label mapping to every track of an annotation. -/
def applyMapping (m : List (Label × Label)) (B : Annot) : Annot :=
  B.map (mapUnit m)

/-- The one-to-one tagger of run.py: HungarianTagger(cost=Cooccurrence),
renaming B's labels through the optimal assignment against A. -/
def one_to_one (A B : Annot) : Annot := applyMapping (hungarianMapping A B) B

/-- Modelled from the spec: per-row argmax — for one label a of A (one
row of the cost matrix), the label b of B with strictly maximal cost(a,
b), none when the whole row has cost 0; a tie keeps the earliest
candidate (the spec leaves the tie-break unspecified). -/
def argMaxRow {α : Type} [LinearOrder α] [Zero α] (cost : Label → Label → α)
    (cols : List Label) (a : Label) : Option Label :=
  cols.foldl (fun acc b =>
    match acc with
    | none => if 0 < cost a b then some b else none
    | some b0 => if cost a b0 < cost a b then some b else some b0) none

/-- Modelled from the spec: the one-to-many mapping computed by
ArgMaxTagger (missing from src/) — every label a of A independently
selects the best-scoring label b of B, so several A-labels may map to
the same B-label (one B-label may receive several A-labels); an all-zero
row yields no mapping for that A-label. -/
def argmaxMapping {α : Type} [LinearOrder α] [Zero α] (cost : Label → Label → α)
    (A B : Annot) : List (Label × Label) :=
  (labelList A).filterMap
    (fun a => (argMaxRow cost (labelList B) a).map (fun b => (a, b)))

/-- The one-to-many tagger of run.py: ArgMaxTagger(cost=CoTFIDF). -/
noncomputable def one_to_many (A B : Annot) : Annot :=
  applyMapping (argmaxMapping (coTFIDF A B) A B) B

/-- The distinct labels of X whose tracks overlap a given segment. -/
def candidateLabels (X : Annot) (s : Segment) : List Label :=
  ((X.filter (fun x => x.1.intersects s)).map Prod.snd).dedup

/-- Modelled from the spec: one step of ConservativeDirectTagger (missing
from src/) — an Unknown-labelled track adopts the label of X exactly when
X offers a single unambiguous co-occurring candidate; a confirmed
(non-Unknown) label is never overwritten. -/
def directUnit (X : Annot) (u : Segment × Label) : Segment × Label :=
  if u.2.isUnknown then
    match candidateLabels X u.1 with
    | [l] => (u.1, l)
    | _ => u
  else u

/-- The conservative direct tagger of run.py: merge the labels of X into
Y without ever overwriting a confirmed label of Y. -/
def direct (X Y : Annot) : Annot := Y.map (directUnit X)

/-- M1 of run.py: one_to_one(on, sd); the third argument is ignored. -/
def M1 {σ : Type} (onn sd : Annot) (sid : σ) : Annot := one_to_one onn sd

/-- M2 of run.py: direct(on, one_to_one(on, sd)); the third argument is
ignored. -/
def M2 {σ : Type} (onn sd : Annot) (sid : σ) : Annot :=
  direct onn (one_to_one onn sd)

/-- M3 of run.py: direct(on, one_to_many(on, sd)); the third argument is
ignored. -/
noncomputable def M3 {σ : Type} (onn sd : Annot) (sid : σ) : Annot :=
  direct onn (one_to_many onn sd)

/-- SID of run.py: pass the supervised identification through
unchanged. -/
def SID (onn sd sid : Annot) : Annot := sid

/-- 'M3 + SID' of run.py: direct(on, one_to_many(on, sid)). -/
noncomputable def combo (onn sd sid : Annot) : Annot :=
  direct onn (one_to_many onn sid)

/-- C4: each named propagation pipeline equals the documented composition
of the taggers — M1 = one_to_one(on, sd), M2 = direct(on, one_to_one(on,
sd)), M3 = direct(on, one_to_many(on, sd)), SID = sid, and 'M3 + SID' =
direct(on, one_to_many(on, sid)). -/
theorem pipeline_compositions (onn sd sid : Annot) :
    M1 onn sd sid = one_to_one onn sd ∧
    M2 onn sd sid = direct onn (one_to_one onn sd) ∧
    M3 onn sd sid = direct onn (one_to_many onn sd) ∧
    SID onn sd sid = sid ∧
    combo onn sd sid = direct onn (one_to_many onn sid) :=
  ⟨rfl, rfl, rfl, rfl, rfl⟩

/-- C10: the M1, M2 and M3 pipelines do not depend on their third
argument — any two values of any types (in particular Python's None,
modelled by Option.none) give identical outputs, so the Table 5 and
Table 6 loops may pass sid = None. -/
theorem pipelines_ignore_sid {σ τ : Type} (onn sd : Annot) (sid1 : σ) (sid2 : τ) :
    M1 onn sd sid1 = M1 onn sd sid2 ∧
    M2 onn sd sid1 = M2 onn sd sid2 ∧
    M3 onn sd sid1 = M3 onn sd sid2 ∧
    M3 onn sd (none : Option Annot) = M3 onn sd (some sd) :=
  ⟨rfl, rfl, rfl, rfl⟩

lemma directUnit_idem (X : Annot) (u : Segment × Label) :
    directUnit X (directUnit X u) = directUnit X u := by
  cases hU : u.2.isUnknown with
  | false => simp [directUnit, hU]
  | true =>
      rcases hc : candidateLabels X u.1 with _ | ⟨l, _ | ⟨l2, rest⟩⟩
      · simp [directUnit, hU, hc]
      · have h1 : directUnit X u = (u.1, l) := by simp [directUnit, hU, hc]
        rw [h1]
        cases hL : l.isUnknown with
        | false => simp [directUnit, hL]
        | true => simp [directUnit, hL, hc]
      · simp [directUnit, hU, hc]

/-- C7: the conservative direct tagger never changes a track whose label
is a confirmed (non-Unknown) label, and the merge is idempotent:
direct(X, direct(X, Y)) = direct(X, Y). -/
theorem direct_conservative (X Y : Annot) :
    (∀ u : Segment × Label, u.2.isUnknown = false → directUnit X u = u) ∧
    direct X (direct X Y) = direct X Y := by
  constructor
  · intro u hu
    simp [directUnit, hu]
  · rw [direct, direct, List.map_map]
    refine List.map_congr_left ?_
    intro u _
    exact directUnit_idem X u

/-- C7 witness: the conservative-tagger theorem applied to a concrete
confirmed-labelled track. -/
theorem direct_conservative_check :
    (Label.known "z").isUnknown = false ∧
    directUnit [] (⟨0, 1⟩, Label.known "z") = (⟨0, 1⟩, Label.known "z") :=
  ⟨rfl, (direct_conservative [] []).1 (⟨0, 1⟩, Label.known "z") rfl⟩

lemma matchings_nil (bs : List Label) : matchings [] bs = [[]] := rfl

lemma matchings_cons (a : Label) (as bs : List Label) :
    matchings (a :: as) bs =
      matchings as bs ++
        bs.flatMap (fun b => (matchings as (bs.erase b)).map (fun m => (a, b) :: m)) :=
  rfl

lemma nil_mem_matchings (as bs : List Label) : [] ∈ matchings as bs := by
  induction as generalizing bs with
  | nil => exact List.mem_cons_self _ _
  | cons a as ih =>
      rw [matchings_cons]
      exact List.mem_append_left _ (ih bs)

lemma mem_matchings_spec :
    ∀ (as : List Label) (bs : List Label) (m : List (Label × Label)),
      m ∈ matchings as bs → as.Nodup → bs.Nodup →
      (∀ p ∈ m, p.1 ∈ as ∧ p.2 ∈ bs) ∧
      (m.map Prod.fst).Nodup ∧ (m.map Prod.snd).Nodup := by
  intro as
  induction as with
  | nil =>
      intro bs m hm _ _
      rw [matchings_nil, List.mem_singleton] at hm
      subst hm
      exact ⟨fun p hp => absurd hp (List.not_mem_nil p), List.nodup_nil, List.nodup_nil⟩
  | cons a as ih =>
      intro bs m hm hnas hnbs
      rw [matchings_cons] at hm
      rcases List.mem_append.mp hm with h | h
      · obtain ⟨hpairs, hfst, hsnd⟩ := ih bs m h (List.Nodup.of_cons hnas) hnbs
        exact ⟨fun p hp => ⟨List.mem_cons_of_mem a (hpairs p hp).1, (hpairs p hp).2⟩,
          hfst, hsnd⟩
      · rw [List.mem_flatMap] at h
        obtain ⟨b, hb, hmb⟩ := h
        rw [List.mem_map] at hmb
        obtain ⟨m', hm', rfl⟩ := hmb
        obtain ⟨hpairs, hfst, hsnd⟩ :=
          ih (bs.erase b) m' hm' (List.Nodup.of_cons hnas) (hnbs.erase b)
        refine ⟨?_, ?_, ?_⟩
        · intro p hp
          rcases List.mem_cons.mp hp with rfl | hp2
          · exact ⟨List.mem_cons_self a as, hb⟩
          · exact ⟨List.mem_cons_of_mem a (hpairs p hp2).1,
              List.mem_of_mem_erase (hpairs p hp2).2⟩
        · rw [List.map_cons, List.nodup_cons]
          refine ⟨?_, hfst⟩
          intro hcontra
          rw [List.mem_map] at hcontra
          obtain ⟨p, hp, hpa⟩ := hcontra
          have hmem := (hpairs p hp).1
          rw [hpa] at hmem
          exact (List.nodup_cons.mp hnas).1 hmem
        · rw [List.map_cons, List.nodup_cons]
          refine ⟨?_, hsnd⟩
          intro hcontra
          rw [List.mem_map] at hcontra
          obtain ⟨p, hp, hpb⟩ := hcontra
          have hmem := (hpairs p hp).2
          rw [hpb] at hmem
          exact hnbs.not_mem_erase hmem

lemma foldl_best_mem (cost : Label → Label → ℚ) :
    ∀ (ms : List (List (Label × Label))) (a : List (Label × Label)),
      ms.foldl (fun acc m => if totalCost cost acc < totalCost cost m then m else acc) a
          = a ∨
      ms.foldl (fun acc m => if totalCost cost acc < totalCost cost m then m else acc) a
          ∈ ms := by
  intro ms
  induction ms with
  | nil => intro a; exact Or.inl rfl
  | cons m ms ih =>
      intro a
      rw [List.foldl_cons]
      rcases ih (if totalCost cost a < totalCost cost m then m else a) with h | h
      · rw [h]
        by_cases hc : totalCost cost a < totalCost cost m
        · rw [if_pos hc]
          exact Or.inr (List.mem_cons_self _ _)
        · rw [if_neg hc]
          exact Or.inl rfl
      · exact Or.inr (List.mem_cons_of_mem _ h)

lemma bestMatching_mem_matchings (A B : Annot) :
    bestMatching (cooccurrence A B) (matchings (labelList A) (labelList B)) ∈
      matchings (labelList A) (labelList B) := by
  rcases foldl_best_mem (cooccurrence A B)
      (matchings (labelList A) (labelList B)) [] with h | h
  · rw [bestMatching, h]
    exact nil_mem_matchings _ _
  · exact h

lemma hungarianMapping_spec (A B : Annot) :
    (∀ p ∈ hungarianMapping A B,
        p.1 ∈ labelList A ∧ p.2 ∈ labelList B ∧ 0 < cooccurrence A B p.1 p.2) ∧
    ((hungarianMapping A B).map Prod.fst).Nodup ∧
    ((hungarianMapping A B).map Prod.snd).Nodup := by
  obtain ⟨hpairs, hfst, hsnd⟩ :=
    mem_matchings_spec (labelList A) (labelList B) _ (bestMatching_mem_matchings A B)
      (List.nodup_dedup _) (List.nodup_dedup _)
  have hsub : List.Sublist (hungarianMapping A B)
      (bestMatching (cooccurrence A B) (matchings (labelList A) (labelList B))) :=
    List.filter_sublist _
  refine ⟨?_, ?_, ?_⟩
  · intro p hp
    rw [hungarianMapping, List.mem_filter] at hp
    obtain ⟨hpm, hpc⟩ := hp
    rw [decide_eq_true_eq] at hpc
    exact ⟨(hpairs p hpm).1, (hpairs p hpm).2, hpc⟩
  · exact List.Nodup.sublist (hsub.map Prod.fst) hfst
  · exact List.Nodup.sublist (hsub.map Prod.snd) hsnd

/-- C8: the one-to-one (Hungarian) tagger produces an injective mapping —
no target label is assigned to two distinct source labels, in either
direction — and a label all of whose candidate pairings have cost 0 is
left unmapped, so tracks carrying it keep their original label. -/
theorem hungarian_one_to_one (A B : Annot) :
    (∀ p ∈ hungarianMapping A B, ∀ q ∈ hungarianMapping A B,
      (p.1 = q.1 → p = q) ∧ (p.2 = q.2 → p = q)) ∧
    (∀ b : Label, (∀ a ∈ labelList A, cooccurrence A B a b = 0) →
      (∀ p ∈ hungarianMapping A B, p.2 ≠ b) ∧
      (∀ u : Segment × Label, u.2 = b → mapUnit (hungarianMapping A B) u = u)) := by
  obtain ⟨hpairs, hfst, hsnd⟩ := hungarianMapping_spec A B
  constructor
  · intro p hp q hq
    exact ⟨fun h => List.inj_on_of_nodup_map hfst hp hq h,
      fun h => List.inj_on_of_nodup_map hsnd hp hq h⟩
  · intro b hzero
    have hnotb : ∀ p ∈ hungarianMapping A B, p.2 ≠ b := by
      intro p hp hpb
      have h3 := (hpairs p hp).2.2
      rw [hpb, hzero p.1 (hpairs p hp).1] at h3
      exact lt_irrefl 0 h3
    refine ⟨hnotb, ?_⟩
    intro u hub
    rw [mapUnit]
    have hnone : (hungarianMapping A B).find? (fun p => decide (p.2 = u.2)) = none := by
      rw [List.find?_eq_none]
      intro p hp
      rw [decide_eq_true_eq, hub]
      exact hnotb p hp
    rw [hnone]

/-- A one-track overlaid-name annotation used to instantiate the
assignment theorem on concrete data. -/
def wOn : Annot := [(⟨0, 2⟩, Label.known "A")]

/-- A two-cluster diarization annotation used to instantiate the
assignment theorem on concrete data. -/
def wSd : Annot := [(⟨0, 1⟩, Label.unknown 10), (⟨5, 6⟩, Label.unknown 11)]

lemma cooc_w10 : cooccurrence wOn wSd (Label.known "A") (Label.unknown 10) = 1 := by
  simp only [cooccurrence, wOn, wSd, List.filter_cons, List.filter_nil,
    decide_eq_true_eq, Label.known.injEq, Label.unknown.injEq]
  norm_num [Segment.overlap, min_def, max_def]

lemma cooc_w11 : cooccurrence wOn wSd (Label.known "A") (Label.unknown 11) = 0 := by
  simp only [cooccurrence, wOn, wSd, List.filter_cons, List.filter_nil,
    decide_eq_true_eq, Label.known.injEq, Label.unknown.injEq]
  norm_num [Segment.overlap, min_def, max_def]

lemma hungarianMapping_eval :
    hungarianMapping wOn wSd = [(Label.known "A", Label.unknown 10)] := by
  rw [hungarianMapping,
    show labelList wOn = [Label.known "A"] from by decide,
    show labelList wSd = [Label.unknown 10, Label.unknown 11] from by decide,
    show matchings [Label.known "A"] [Label.unknown 10, Label.unknown 11] =
      [[], [(Label.known "A", Label.unknown 10)], [(Label.known "A", Label.unknown 11)]]
      from by decide]
  simp only [bestMatching, List.foldl_cons, List.foldl_nil, totalCost,
    List.map_cons, List.map_nil, List.sum_cons, List.sum_nil, cooc_w10, cooc_w11,
    List.filter_cons, List.filter_nil, decide_eq_true_eq]
  norm_num [cooc_w10, cooc_w11, List.filter_cons, List.filter_nil, decide_eq_true_eq]

/-- C8 witness: the assignment theorem applied to concrete annotations —
the cluster with only zero-cost pairings keeps its label, and the mapped
pair is uniquely determined by its target label. -/
theorem hungarian_one_to_one_check :
    cooccurrence wOn wSd (Label.known "A") (Label.unknown 11) = 0 ∧
    mapUnit (hungarianMapping wOn wSd) (⟨5, 6⟩, Label.unknown 11) =
      (⟨5, 6⟩, Label.unknown 11) ∧
    ((Label.known "A", Label.unknown 10) : Label × Label) =
      (Label.known "A", Label.unknown 10) :=
  ⟨cooc_w11,
   ((hungarian_one_to_one wOn wSd).2 (Label.unknown 11)
     (by
       intro a ha
       rw [show labelList wOn = [Label.known "A"] from by decide,
         List.mem_singleton] at ha
       subst ha
       exact cooc_w11)).2 (⟨5, 6⟩, Label.unknown 11) rfl,
   ((hungarian_one_to_one wOn wSd).1 (Label.known "A", Label.unknown 10)
     (by rw [hungarianMapping_eval]; exact List.mem_cons_self _ _)
     (Label.known "A", Label.unknown 10)
     (by rw [hungarianMapping_eval]; exact List.mem_cons_self _ _)).1 rfl⟩
